import Mathlib

/-!
Verification of the address-scraping core of `src/main.py`.

Python strings are modelled as `List Char` (ASCII character classes for the
regex classes `\s`, `\d`, `\w`, `[A-Z]`, `[A-Za-z]`).  Python functions that
can raise are modelled as `Except String _`.  Each regex used by the source is
embedded as a dedicated search function faithful to `re.search` semantics
(leftmost match position, greedy quantifiers with backtracking where the
pattern needs it).  The `set` of surviving address strings used by the
deduplication loop in `extract_address_info` is modelled as an
insertion-ordered duplicate-free list, and Python `dict` as an
insertion-ordered association list.
-/

set_option maxRecDepth 40000

/-- Python strings, modelled as lists of characters. -/
abbrev Str := List Char

/-- Literal convenience: the character list of a Lean string literal. -/
def chars (s : String) : Str := s.data

/-- ASCII whitespace, the characters matched by Python's `\s` and `str.split()`
/ `str.strip()` on ASCII text. -/
def isSpaceCh (c : Char) : Bool :=
  c = ' ' || c = '\t' || c = '\n' || c = '\r' || c = '\x0b' || c = '\x0c'

/-- `[0-9]`, Python's `\d` on ASCII text. -/
def isDigitCh (c : Char) : Bool := '0' ≤ c && c ≤ '9'

/-- `[A-Z]`. -/
def isUpper (c : Char) : Bool := 'A' ≤ c && c ≤ 'Z'

/-- `[a-z]`. -/
def isLower (c : Char) : Bool := 'a' ≤ c && c ≤ 'z'

/-- `[A-Za-z]`. -/
def isAlphaCh (c : Char) : Bool := isUpper c || isLower c

/-- Python's `\w` on ASCII text: letters, digits, underscore. -/
def isWordCh (c : Char) : Bool := isAlphaCh c || isDigitCh c || c = '_'

/-- The character class `[A-Za-z\s]` used by the road and segment regexes. -/
def classAlSp (c : Char) : Bool := isAlphaCh c || isSpaceCh c

/-- Accumulator loop of `str.split()`: splits on whitespace runs, producing no
empty tokens.  `acc` holds the current token reversed. -/
def splitAux : Str → Str → List Str
  | [], acc => if acc.isEmpty then [] else [acc.reverse]
  | c :: cs, acc =>
    if isSpaceCh c then
      if acc.isEmpty then splitAux cs [] else acc.reverse :: splitAux cs []
    else splitAux cs (c :: acc)

/-- Python `str.split()` with no separator argument. -/
def pySplit (s : Str) : List Str := splitAux s []

/-- Python `' '.join(parts)`. -/
def joinTokens (ts : List Str) : Str := List.intercalate [' '] ts

/-- Python `str.isdigit()` on ASCII text: non-empty and all digits. -/
def pyIsDigit (s : Str) : Bool := !s.isEmpty && s.all isDigitCh

/-- `remove_number_from_road` from `src/main.py` (lines 32-43): for a present
road, split into whitespace-delimited tokens, drop the first token when it is
purely numeric, and rejoin with single spaces; a `None` road is returned
unchanged.  Indexing `parts[0]` on an empty token list raises `IndexError`,
modelled as `Except.error`. -/
def remove_number_from_road : Option Str → Except String (Option Str)
  | none => Except.ok none
  | some road =>
    match pySplit road with
    | [] => Except.error "IndexError"
    | p :: rest =>
      Except.ok (some (joinTokens (if pyIsDigit p then rest else p :: rest)))

/-- Left-trim of a whitespace run, `str.lstrip()`. -/
def trimLeft (s : Str) : Str := s.dropWhile isSpaceCh

/-- Right-trim of a whitespace run, `str.rstrip()`. -/
def trimRight (s : Str) : Str := (trimLeft s.reverse).reverse

/-- Python `str.strip()`. -/
def stripStr (s : Str) : Str := trimRight (trimLeft s)

/-- Worker for `re.sub(r'\s+', ' ', s)`: `prevSpace` records whether the
previous character was part of a whitespace run already emitted as `' '`. -/
def collapseWsAux (prevSpace : Bool) : Str → Str
  | [] => []
  | c :: cs =>
    if isSpaceCh c then
      if prevSpace then collapseWsAux true cs else ' ' :: collapseWsAux true cs
    else c :: collapseWsAux false cs

/-- `re.sub(r'\s+', ' ', s)`: every whitespace run becomes a single space. -/
def collapseWs (s : Str) : Str := collapseWsAux false s

/-- `normalize_postal_code` from `src/main.py` (lines 26-30). -/
def normalize_postal_code (s : Str) : Str := stripStr (collapseWs s)

/-!
## Embedded regex searches for `parse_address`

`reSearch step s` scans match start positions left to right (the semantics of
`re.search`); `step` receives the reversed prefix (for lookbehind / word
boundary tests) and the suffix starting at the candidate position, and returns
the matched text if the pattern matches there.
-/

/-- Scan positions left to right; `pre` is the reversed prefix. -/
def searchAux (step : Str → Str → Option Str) : Str → Str → Option Str
  | pre, [] => step pre []
  | pre, c :: cs =>
    match step pre (c :: cs) with
    | some r => some r
    | none => searchAux step (c :: pre) cs

/-- `re.search` with the given per-position matcher. -/
def reSearch (step : Str → Str → Option Str) (s : Str) : Option Str :=
  searchAux step [] s

/-- `(run, rest)`: maximal prefix run of characters in class `p`. -/
def takeClass (p : Char → Bool) : Str → Str × Str
  | [] => ([], [])
  | c :: cs =>
    if p c then
      let r := takeClass p cs
      (c :: r.1, r.2)
    else ([], c :: cs)

/-- Lookbehind `(?<=, )`: the reversed prefix starts with `' '` then `','`. -/
def afterCommaSpace (pre : Str) : Bool :=
  match pre with
  | ' ' :: ',' :: _ => true
  | _ => false

/-- The next `n` characters are digits. -/
def lookDigits : Nat → Str → Bool
  | 0, _ => true
  | _ + 1, [] => false
  | n + 1, c :: cs => isDigitCh c && lookDigits n cs

/-- Greedy backtracking for `[A-Z][A-Za-z\s]+(?=LA)`: `c` is the leading
capital, `rest` the text after it, and `j` counts down from the maximal run
length; the first length whose lookahead succeeds wins (greedy `+`). -/
def greedyTry (c : Char) (rest : Str) (la : Str → Bool) : Nat → Option Str
  | 0 => none
  | j + 1 =>
    if la (rest.drop (j + 1)) then some (c :: rest.take (j + 1))
    else greedyTry c rest la j

/-- Matcher for `(?<=, )([A-Z][A-Za-z\s]+)(?=LA)` at one position, the common
shape of the country / region / city regexes of `parse_address`. -/
def capRunStep (la : Str → Bool) (pre s : Str) : Option Str :=
  if afterCommaSpace pre then
    match s with
    | c :: rest =>
      if isUpper c then greedyTry c rest la (takeClass classAlSp rest).1.length
      else none
    | [] => none
  else none

/-- Lookahead `(?= \d{5})` of the country regex. -/
def countryLA (s : Str) : Bool :=
  match s with
  | ' ' :: t => lookDigits 5 t
  | _ => false

/-- Lookahead `(?=, [A-Z]{2})` of the region regex. -/
def regionLA (s : Str) : Bool :=
  match s with
  | ',' :: ' ' :: a :: b :: _ => isUpper a && isUpper b
  | _ => false

/-- Lookahead `(?=, \w{2} \d{5})` of the city regex. -/
def cityLA (s : Str) : Bool :=
  match s with
  | ',' :: ' ' :: a :: b :: ' ' :: rest => isWordCh a && isWordCh b && lookDigits 5 rest
  | _ => false

/-- Matcher for `country_regex = (?<=, )([A-Z][A-Za-z\s]+)(?= \d{5})`. -/
def countryStep (pre s : Str) : Option Str := capRunStep countryLA pre s

/-- Matcher for `region_regex = (?<=, )([A-Z][A-Za-z\s]+)(?=, [A-Z]{2})`. -/
def regionStep (pre s : Str) : Option Str := capRunStep regionLA pre s

/-- Matcher for `city_regex = (?<=, )([A-Z][A-Za-z\s]+)(?=, \w{2} \d{5})`. -/
def cityStep (pre s : Str) : Option Str := capRunStep cityLA pre s

/-- The text starts with the bare postal shape: two uppercase letters, one
whitespace character, five digits (`[A-Z]{2}\s\d{5}`). -/
def barePostalAt : Str → Bool
  | a :: b :: w :: d1 :: d2 :: d3 :: d4 :: d5 :: _ =>
    isUpper a && isUpper b && isSpaceCh w &&
      isDigitCh d1 && isDigitCh d2 && isDigitCh d3 && isDigitCh d4 && isDigitCh d5
  | _ => false

/-- Word boundary `\b` before a word character: the previous character (head
of the reversed prefix) is absent or a non-word character. -/
def wordBoundaryL (pre : Str) : Bool :=
  match pre with
  | [] => true
  | c :: _ => !isWordCh c

/-- Word boundary `\b` after a word character: the next character is absent or
a non-word character. -/
def wordBoundaryR (s : Str) : Bool :=
  match s with
  | [] => true
  | c :: _ => !isWordCh c

/-- Matcher for `postcode_regex = \b[A-Z]{2}\s\d{5}\b` (also the postal-key
pattern of `extract_address_info`, line 119): the eight fixed-width items with
word boundaries on both sides. -/
def postcodeStep (pre s : Str) : Option Str :=
  if wordBoundaryL pre && barePostalAt s && wordBoundaryR (s.drop 8) then some (s.take 8)
  else none

/-- Matcher for `road_regex = \d+\s+[A-Z][A-Za-z\s]+`.  The classes `\d` and
`\s` are disjoint and nothing follows the final `+`, so every greedy run is
forced maximal. -/
def roadStep (_pre s : Str) : Option Str :=
  let ds := takeClass isDigitCh s
  if ds.1.isEmpty then none
  else
    let ws := takeClass isSpaceCh ds.2
    if ws.1.isEmpty then none
    else
      match ws.2 with
      | c :: r3 =>
        if isUpper c then
          let tl := takeClass classAlSp r3
          if tl.1.isEmpty then none else some (ds.1 ++ ws.1 ++ c :: tl.1)
        else none
      | [] => none

/-- Matcher for `street_number_regex = \b\d+\b`: a maximal digit run with word
boundaries on both sides. -/
def bareIntStep (pre s : Str) : Option Str :=
  if wordBoundaryL pre then
    let ds := takeClass isDigitCh s
    if ds.1.isEmpty then none
    else if wordBoundaryR ds.2 then some ds.1 else none
  else none

/-- Python `int(...)` on a digit string. -/
def digitsToNat (s : Str) : Nat :=
  s.foldl (fun n c => 10 * n + (c.toNat - '0'.toNat)) 0

/-- The record returned by `parse_address`. -/
structure ParsedAddress where
  country : Option Str
  region : Option Str
  city : Option Str
  postcode : Option Str
  road : Option Str
  street_number : Option Nat
deriving Repr, DecidableEq

/-- `parse_address` from `src/main.py` (lines 45-97): six independent regex
searches over the input; `street_number` is only computed when the road regex
matched; the returned road goes through `remove_number_from_road`, whose
possible `IndexError` propagates. -/
def parse_address (address : Str) : Except String ParsedAddress :=
  match remove_number_from_road (reSearch roadStep address) with
  | Except.error e => Except.error e
  | Except.ok road2 =>
    Except.ok { country := reSearch countryStep address,
                region := reSearch regionStep address,
                city := reSearch cityStep address,
                postcode := reSearch postcodeStep address,
                road := road2,
                street_number :=
                  match reSearch roadStep address with
                  | some _ => (reSearch bareIntStep address).map digitsToNat
                  | none => none }

/-!
## `difflib.SequenceMatcher` (no junk heuristic)

`similarity a b` is `SequenceMatcher(None, a, b).ratio()`: twice the total
size of the matching blocks divided by the total length.  `find_longest_match`
returns the longest common substring, ties broken by smallest position in `a`
then smallest position in `b`; `get_matching_blocks` recurses on the pieces
left and right of that block.  (The `autojunk` heuristic, which only activates
for strings of 200 or more characters, is not modelled; Python's float
division and comparison are modelled as exact rational arithmetic.)
-/

/-- Length of the longest common prefix. -/
def commonPrefixLen : Str → Str → Nat
  | a :: as, b :: bs => if a = b then commonPrefixLen as bs + 1 else 0
  | _, _ => 0

/-- Length of the longest common substring. -/
def bestK (a b : Str) : Nat :=
  ((a.tails.map (fun sa => b.tails.map (fun sb => commonPrefixLen sa sb))).flatten).foldl max 0

/-- All index pairs `(i, j)` with `i < la`, `j < lb`, in lexicographic order. -/
def pairsLex (la lb : Nat) : List (Nat × Nat) :=
  ((List.range la).map (fun i => (List.range lb).map (fun j => (i, j)))).flatten

/-- `find_longest_match` over the whole strings: `(i, j, k)` with `k` the
longest common substring length and `(i, j)` the lexicographically first
start positions realizing it (difflib's tie-break). -/
def flm (a b : Str) : Nat × Nat × Nat :=
  let K := bestK a b
  if K = 0 then (0, 0, 0)
  else
    match (pairsLex a.length b.length).find?
        (fun ij => K ≤ commonPrefixLen (a.drop ij.1) (b.drop ij.2)) with
    | some ij => (ij.1, ij.2, K)
    | none => (0, 0, 0)

/-- Total size of the matching blocks (`get_matching_blocks`), with explicit
fuel: each recursive call is on strict sub-strings (the block has size at
least 1), so total length strictly decreases and `a.length + b.length` fuel
always suffices. -/
def matchSumF : Nat → Str → Str → Nat
  | 0, _, _ => 0
  | fuel + 1, a, b =>
    let r := flm a b
    if r.2.2 = 0 then 0
    else
      r.2.2 + matchSumF fuel (a.take r.1) (b.take r.2.1) +
        matchSumF fuel (a.drop (r.1 + r.2.2)) (b.drop (r.2.1 + r.2.2))

/-- Total size of the matching blocks of `SequenceMatcher(None, a, b)`. -/
def matchSum (a b : Str) : Nat := matchSumF (a.length + b.length) a b

/-- `SequenceMatcher(None, a, b).ratio()`, as an exact rational: `2M / T`
with `M` the total matching-block size and `T` the total length (`1` when
both strings are empty, per `_calculate_ratio`). -/
def similarity (a b : Str) : ℚ :=
  if a.length + b.length = 0 then 1
  else 2 * (matchSum a b : ℚ) / ((a.length : ℚ) + (b.length : ℚ))

/-- The comparison `SequenceMatcher(None, a, b).ratio() > 0.8` from line 129,
in integer arithmetic (`2M/T > 4/5 ⟺ 10M > 4T`; both-empty gives `1 > 0.8`,
true). -/
def simGtP8 (a b : Str) : Bool :=
  if a.length + b.length = 0 then true
  else 4 * (a.length + b.length) < 10 * matchSum a b

/-!
## The per-postal-key merge of `extract_address_info` (lines 116-143)
-/

/-- `a` is a prefix of `b` (character lists). -/
def isPrefixCh : Str → Str → Bool
  | [], _ => true
  | _ :: _, [] => false
  | a :: as, b :: bs => a = b && isPrefixCh as bs

/-- Python's `addr in address_text`: substring test. -/
def isSubstring (a : Str) (x : Str) : Bool :=
  match x with
  | [] => a.isEmpty
  | _ :: xs => isPrefixCh a x || isSubstring a xs

/-- The survivor-set loop of lines 125-136 for each new fragment `x`, over a
snapshot of the current survivors (`addresses.copy()`), in insertion order:
* similarity above 0.8 and `x` longer: drop the survivor, keep scanning;
* similarity above 0.8 and `x` not longer: reject `x` and stop (`break`),
  leaving the rest of the set untouched;
* survivor a literal substring of `x`: drop the survivor, keep scanning.
Returns the remaining survivors and whether `x` is to be added. -/
def mergeLoop (x : Str) : List Str → List Str × Bool
  | [] => ([], true)
  | a :: rest =>
    if simGtP8 x a then
      if a.length < x.length then mergeLoop x rest
      else (a :: rest, false)
    else if isSubstring a x then mergeLoop x rest
    else ((a :: (mergeLoop x rest).1), (mergeLoop x rest).2)

/-- One insertion into a key's survivor set (lines 124-138): run the merge
loop, then add `x` when it was not rejected (`addresses.add`; as a set it is
modelled by appending, and a rejected `x` is never already present). -/
def insertAddr (addrs : List Str) (x : Str) : List Str :=
  let r := mergeLoop x addrs
  if r.2 then r.1 ++ [x] else r.1

/-- Update the ordered association list at key `k` (Python `dict`): create the
key with a fresh empty set if absent (lines 122-123), then insert `x`. -/
def updateAssoc (m : List (Str × List Str)) (k : Str) (x : Str) : List (Str × List Str) :=
  match m with
  | [] => [(k, insertAddr [] x)]
  | (k', v) :: rest =>
    if k' = k then (k', insertAddr v x) :: rest else (k', v) :: updateAssoc rest k x

/-- Lines 118-138 for one fragment: strip it, look for a postal key with
`re.search(r'\b[A-Z]{2}\s\d{5}\b', ...)`, drop the fragment if there is none,
otherwise insert into the normalized key's survivor set. -/
def dedupeStep (m : List (Str × List Str)) (frag : Str) : List (Str × List Str) :=
  let t := stripStr frag
  match reSearch postcodeStep t with
  | none => m
  | some pc => updateAssoc m (normalize_postal_code pc) t

/-- The grouping/merge pass over all fragments (lines 116-138). -/
def dedupeGroups (frags : List Str) : List (Str × List Str) :=
  List.foldl dedupeStep [] frags

/-- Python `max(addresses, key=len)`: the first element of maximal length
(ties keep the earlier element, since `max` replaces only on strictly greater
key). -/
def pickLonger (best x : Str) : Str := if best.length < x.length then x else best

/-- Collapse one survivor set to its canonical string (lines 140-142). -/
def maxByLen (addrs : List Str) : Str :=
  match addrs with
  | [] => []
  | a :: rest => rest.foldl pickLonger a

/-- Collapse one group. -/
def collapseGroup (p : Str × List Str) : Str × Str := (p.1, maxByLen p.2)

/-- The deduplication contract of `extract_address_info` (lines 116-143):
fragments to one canonical address per normalized postal key. -/
def dedupe (frags : List Str) : List (Str × Str) :=
  (dedupeGroups frags).map collapseGroup

/-- The postal key a fragment would be grouped under, if any. -/
def keyOf (t : Str) : Option Str :=
  (reSearch postcodeStep t).map normalize_postal_code

/-!
## `find_address_element` fallback (lines 17-24)

The composite pattern
`[A-Za-z\s]+\d+[A-Za-z\s]+[A-Z]{2}\s\d{5}|[A-Za-z]{2}\s\d{5}|[A-Za-z]\d[A-Za-z] \d[A-Za-z]\d`
is compiled with `re.IGNORECASE`, so `[A-Z]` also matches lowercase letters.
Only whether some substring matches is observable (the fallback keeps a text
node iff `address_pattern.search(...)` succeeds), so the engine computes the
set of suffixes reachable after matching each sub-pattern at a position.
-/

/-- Character-class regexes: single class, concatenation, alternation, and
greedy one-or-more of a class. -/
inductive RE where
  | cls (p : Char → Bool)
  | seq (a b : RE)
  | alt (a b : RE)
  | plus (p : Char → Bool)

/-- Suffixes after consuming one or more characters of class `p`. -/
def clsSuffixes (p : Char → Bool) : Str → List Str
  | [] => []
  | c :: cs => if p c then cs :: clsSuffixes p cs else []

/-- All suffixes reachable after matching `re` at the start of `s`. -/
def REmatches : RE → Str → List Str
  | RE.cls _, [] => []
  | RE.cls p, c :: cs => if p c then [cs] else []
  | RE.seq a b, s => ((REmatches a s).map (fun t => REmatches b t)).flatten
  | RE.alt a b, s => REmatches a s ++ REmatches b s
  | RE.plus p, s => clsSuffixes p s

/-- `n`-fold concatenation of a single class. -/
def REreps (p : Char → Bool) : Nat → RE → RE
  | 0, k => k
  | n + 1, k => RE.seq (RE.cls p) (REreps p n k)

/-- `\d{5}` as a trailing item. -/
def fiveDigitsRE : RE := REreps isDigitCh 4 (RE.cls isDigitCh)

/-- First alternative, `[A-Za-z\s]+\d+[A-Za-z\s]+[A-Z]{2}\s\d{5}` under
`IGNORECASE` (`[A-Z]{2}` matches any letter pair). -/
def compositeAlt1 : RE :=
  RE.seq (RE.plus classAlSp) (RE.seq (RE.plus isDigitCh) (RE.seq (RE.plus classAlSp)
    (RE.seq (RE.cls isAlphaCh) (RE.seq (RE.cls isAlphaCh)
      (RE.seq (RE.cls isSpaceCh) fiveDigitsRE)))))

/-- Second alternative, `[A-Za-z]{2}\s\d{5}`. -/
def compositeAlt2 : RE :=
  RE.seq (RE.cls isAlphaCh) (RE.seq (RE.cls isAlphaCh)
    (RE.seq (RE.cls isSpaceCh) fiveDigitsRE))

/-- Third alternative, `[A-Za-z]\d[A-Za-z] \d[A-Za-z]\d` (Canadian shape,
with a literal space). -/
def compositeAlt3 : RE :=
  RE.seq (RE.cls isAlphaCh) (RE.seq (RE.cls isDigitCh) (RE.seq (RE.cls isAlphaCh)
    (RE.seq (RE.cls (fun c => c = ' ')) (RE.seq (RE.cls isDigitCh)
      (RE.seq (RE.cls isAlphaCh) (RE.cls isDigitCh))))))

/-- The composite address pattern of line 20. -/
def compositeRE : RE := RE.alt compositeAlt1 (RE.alt compositeAlt2 compositeAlt3)

/-- `address_pattern.search(text)` succeeds: some start position admits a
match of the composite pattern. -/
def compositeSearch (s : Str) : Bool :=
  s.tails.any (fun t => !(REmatches compositeRE t).isEmpty)

/-- `find_address_element` from `src/main.py` (lines 8-24), abstracted over
the two document queries it makes: `classElems` is the text of the elements
matched by the selector `.address, .contact, .location`, and `textNodes` the
text of every text node.  If any class-selected element exists those are
returned; otherwise exactly the text nodes on which the composite pattern
search succeeds, in document order. -/
def find_address_element (classElems textNodes : List Str) : List Str :=
  match classElems with
  | [] => textNodes.filter compositeSearch
  | _ => classElems

/-!
## `found_percentage` (lines 155-160)

`result = awfc / (awfc + awnfc) * 100` is evaluated by CPython as follows:
`int / int` raises `ZeroDivisionError` on a zero denominator and otherwise
returns the IEEE-754 double nearest (ties to even) to the exact quotient
(`long_true_divide` rounds the exact rational correctly, and the hardware
division used in the small-int fast path is correctly rounded too); `* 100`
converts `100` exactly and performs one correctly rounded double
multiplication.  `f"{result:.2f}"` renders the exact binary value of the
resulting double to two decimal places, ties to even.  The model below
computes the two doubles exactly as mantissa/exponent pairs `(m, eneg)` with
value `m / 2^eneg`, `m < 2^53`, `eneg ≤ 1074` (subnormals have `eneg = 1074`),
in plain natural-number arithmetic.
-/

/-- Round half-to-even to the nearest integer. -/
def roundHalfEven (x : ℚ) : ℤ :=
  if x - ⌊x⌋ < 1/2 then ⌊x⌋
  else if (1:ℚ)/2 < x - ⌊x⌋ then ⌊x⌋ + 1
  else if ⌊x⌋ % 2 = 0 then ⌊x⌋ else ⌊x⌋ + 1

/-- Round `N / D` (`D > 0`) to the nearest natural number, ties to even. -/
def rndNat (N D : Nat) : Nat :=
  if 2 * (N % D) < D then N / D
  else if D < 2 * (N % D) then N / D + 1
  else if (N / D) % 2 = 0 then N / D else N / D + 1

/-- Number of binary digits of `n`, with fuel; `n + 1` fuel suffices since
the argument halves at every step. -/
def natBitsF : Nat → Nat → Nat
  | 0, _ => 0
  | fuel + 1, n => if n = 0 then 0 else natBitsF fuel (n / 2) + 1

/-- Number of binary digits of `n` (`2^(natBits n - 1) ≤ n < 2^(natBits n)`
for `n > 0`). -/
def natBits (n : Nat) : Nat := natBitsF (n + 1) n

/-- The correctly rounded (round-half-even) IEEE-754 double of `a / s` for
`0 < s` and `a ≤ s` (the ratio is at most `1`), as `(m, eneg)` with value
`m / 2^eneg`: normalize the quotient to a 53-bit mantissa (`shift` is chosen
so that `a · 2^shift / s ∈ [2^52, 2^53)`), round, and propagate a carry to
`2^53`; quotients below `2^-1022` use the subnormal grid `2^-1074`. -/
def ratioToDouble (a s : Nat) : Nat × Nat :=
  if a = 0 then (0, 0)
  else
    let t := natBits s + 52 - natBits a
    let shift := if s * 2 ^ 52 ≤ a * 2 ^ t then t else t + 1
    let shift2 := min shift 1074
    let M := rndNat (a * 2 ^ shift2) s
    if M = 2 ^ 53 then (2 ^ 52, shift2 - 1) else (M, shift2)

/-- One correctly rounded IEEE-754 double multiplication by the exact
constant `100`: products with at most 53 mantissa bits are exact, longer
ones are rounded half-to-even with carry propagation. -/
def doubleMul100 (p : Nat × Nat) : Nat × Nat :=
  if 100 * p.1 < 2 ^ 53 then (100 * p.1, p.2)
  else
    let sh := natBits (100 * p.1) - 53
    let M := rndNat (100 * p.1) (2 ^ sh)
    if M = 2 ^ 53 then (2 ^ 52, p.2 - sh - 1) else (M, p.2 - sh)

/-- The exact rational value of the double `(m, eneg)`. -/
def dblValue (p : Nat × Nat) : ℚ := (p.1 : ℚ) / ((2 : ℚ) ^ p.2)

/-- Decimal digits of a natural number (most significant first), with fuel;
`n + 1` fuel suffices since `n / 10 < n` for `n ≥ 10`. -/
def natDigitsAux : Nat → Nat → List Char
  | 0, _ => []
  | fuel + 1, n =>
    if n < 10 then [Nat.digitChar n]
    else natDigitsAux fuel (n / 10) ++ [Nat.digitChar (n % 10)]

/-- Decimal representation of a natural number. -/
def natToChars (n : Nat) : Str := natDigitsAux (n + 1) n

/-- Print a number of hundredths as `I.FF` (the shape of `f"{x:.2f}"` for a
non-negative value). -/
def formatHundredths (n : Nat) : Str :=
  natToChars (n / 100) ++ '.' :: [Nat.digitChar (n % 100 / 10), Nat.digitChar (n % 100 % 10)]

/-- `found_percentage` from `src/main.py` (lines 155-160): raises
`ZeroDivisionError` when both counters are zero; otherwise computes the
double `fl(fl(awfc / (awfc + awnfc)) * 100)` exactly, renders it to two
decimal places (its hundredths count, rounded half-to-even) and appends
`%`. -/
def found_percentage (awfc awnfc : Nat) : Except String Str :=
  if awfc + awnfc = 0 then Except.error "ZeroDivisionError"
  else
    Except.ok (formatHundredths
      (rndNat (100 * (doubleMul100 (ratioToDouble awfc (awfc + awnfc))).1)
        (2 ^ (doubleMul100 (ratioToDouble awfc (awfc + awnfc))).2)) ++ ['%'])

/-- The claim's bare postal-code containment test: some substring consists of
two uppercase letters, a whitespace character and five digits. -/
def containsBarePostal : Str → Bool
  | [] => barePostalAt []
  | c :: t => barePostalAt (c :: t) || containsBarePostal t

/-!
## Lemmas: trimming, substrings, searches
-/

theorem dropWhile_idem (p : Char → Bool) (l : Str) :
    (l.dropWhile p).dropWhile p = l.dropWhile p := by
  induction l with
  | nil => rfl
  | cons c cs ih =>
    by_cases h : p c
    · simpa [List.dropWhile_cons, h] using ih
    · simp [List.dropWhile_cons, h]

theorem trimLeft_idem (s : Str) : trimLeft (trimLeft s) = trimLeft s :=
  dropWhile_idem isSpaceCh s

theorem trimRight_idem (s : Str) : trimRight (trimRight s) = trimRight s := by
  simp only [trimRight, List.reverse_reverse]
  rw [trimLeft_idem]

theorem trimRight_isPre (s : Str) : trimRight s <+: s := by
  rcases List.dropWhile_suffix (l := s.reverse) (p := isSpaceCh) with ⟨t, ht⟩
  refine ⟨t.reverse, ?_⟩
  have h2 := congrArg List.reverse ht
  simpa [trimRight, trimLeft, List.reverse_append] using h2

theorem trimLeft_of_head_not (c : Char) (t : Str) (h : isSpaceCh c = false) :
    trimLeft (c :: t) = c :: t := by
  simp [trimLeft, List.dropWhile_cons, h]

theorem trimLeft_head_false (a : Char) (as : Str) (hfix : trimLeft (a :: as) = a :: as) :
    isSpaceCh a = false := by
  cases ha : isSpaceCh a with
  | false => rfl
  | true =>
    exfalso
    have h1 : trimLeft (a :: as) = trimLeft as := by
      simp [trimLeft, List.dropWhile_cons, ha]
    have h2 : (trimLeft as).length ≤ as.length :=
      (List.dropWhile_suffix (p := isSpaceCh)).sublist.length_le
    rw [hfix] at h1
    rw [← h1] at h2
    simp only [List.length_cons] at h2
    omega

theorem stripStr_idem (s : Str) : stripStr (stripStr s) = stripStr s := by
  unfold stripStr
  have hmfix : trimLeft (trimLeft s) = trimLeft s := trimLeft_idem s
  have hfix : trimLeft (trimRight (trimLeft s)) = trimRight (trimLeft s) := by
    cases hmr : trimRight (trimLeft s) with
    | nil => rfl
    | cons c t =>
      have hpre : c :: t <+: trimLeft s := hmr ▸ trimRight_isPre (trimLeft s)
      cases hm : trimLeft s with
      | nil =>
        rw [hm] at hpre
        rcases hpre with ⟨r, hr⟩
        simp at hr
      | cons a as =>
        have ha : isSpaceCh a = false :=
          trimLeft_head_false a as (by rw [← hm]; exact hmfix)
        rw [hm] at hpre
        rcases hpre with ⟨r, hr⟩
        rw [List.cons_append] at hr
        injection hr with h1 _
        subst h1
        exact trimLeft_of_head_not c t ha
  rw [hfix]
  exact trimRight_idem _

theorem stripStr_isInf (s : Str) : stripStr s <:+: s := by
  rcases trimRight_isPre (trimLeft s) with ⟨r, hr⟩
  rcases List.dropWhile_suffix (l := s) (p := isSpaceCh) with ⟨t, ht⟩
  refine ⟨t, r, ?_⟩
  have hs : t ++ (stripStr s ++ r) = s := by
    show t ++ (trimRight (trimLeft s) ++ r) = s
    rw [hr]
    exact ht
  rw [List.append_assoc]
  exact hs

theorem isPrefixCh_length (a b : Str) (h : isPrefixCh a b = true) :
    a.length ≤ b.length := by
  induction a generalizing b with
  | nil => simp
  | cons x xs ih =>
    cases b with
    | nil => simp [isPrefixCh] at h
    | cons y ys =>
      simp only [isPrefixCh, Bool.and_eq_true] at h
      simpa using ih ys h.2

theorem isSubstring_length (a x : Str) (h : isSubstring a x = true) :
    a.length ≤ x.length := by
  induction x with
  | nil =>
    simp only [isSubstring, List.isEmpty_iff] at h
    simp [h]
  | cons y ys ih =>
    simp only [isSubstring, Bool.or_eq_true] at h
    rcases h with h | h
    · exact isPrefixCh_length _ _ h
    · exact le_trans (ih h) (by simp)

theorem searchAux_success (step : Str → Str → Option Str) (r : Str) :
    ∀ (s pre : Str), searchAux step pre s = some r →
      ∃ pre' s', s' <:+ s ∧ step pre' s' = some r := by
  intro s
  induction s with
  | nil =>
    intro pre h
    exact ⟨pre, [], List.suffix_refl _, h⟩
  | cons c cs ih =>
    intro pre h
    rw [searchAux] at h
    cases hs : step pre (c :: cs) with
    | some v =>
      rw [hs] at h
      simp only [] at h
      exact ⟨pre, c :: cs, List.suffix_refl _, by rw [hs]; exact h⟩
    | none =>
      rw [hs] at h
      simp only [] at h
      rcases ih (c :: pre) h with ⟨pre', s', hsuf, hstep⟩
      exact ⟨pre', s', hsuf.trans (List.suffix_cons c cs), hstep⟩

theorem postcodeStep_bare (pre s r : Str) (h : postcodeStep pre s = some r) :
    barePostalAt s = true := by
  unfold postcodeStep at h
  split at h
  · rename_i hcond
    simp only [Bool.and_eq_true] at hcond
    exact hcond.1.2
  · cases h

theorem barePostalAt_append :
    ∀ (t u : Str), barePostalAt t = true → barePostalAt (t ++ u) = true
  | a :: b :: w :: d1 :: d2 :: d3 :: d4 :: d5 :: _, _, h => by
    simpa [barePostalAt] using h
  | [], _, h => by simp [barePostalAt] at h
  | [_], _, h => by simp [barePostalAt] at h
  | [_, _], _, h => by simp [barePostalAt] at h
  | [_, _, _], _, h => by simp [barePostalAt] at h
  | [_, _, _, _], _, h => by simp [barePostalAt] at h
  | [_, _, _, _, _], _, h => by simp [barePostalAt] at h
  | [_, _, _, _, _, _], _, h => by simp [barePostalAt] at h
  | [_, _, _, _, _, _, _], _, h => by simp [barePostalAt] at h

theorem containsBarePostal_of_suffix (s : Str) :
    ∀ t, t <:+ s → barePostalAt t = true → containsBarePostal s = true := by
  induction s with
  | nil =>
    intro t ht hb
    have : t = [] := List.suffix_nil.mp ht
    subst this
    simpa [containsBarePostal] using hb
  | cons c cs ih =>
    intro t ht hb
    rcases List.suffix_cons_iff.mp ht with rfl | hts
    · simp [containsBarePostal, hb]
    · simp [containsBarePostal, ih t hts hb]

theorem containsBarePostal_of_infix (u s : Str) (h : u <:+: s)
    (hb : barePostalAt u = true) : containsBarePostal s = true := by
  rcases h with ⟨pre, post, hdecomp⟩
  have hsuf : u ++ post <:+ s := ⟨pre, by rw [← hdecomp, List.append_assoc]⟩
  exact containsBarePostal_of_suffix s (u ++ post) hsuf (barePostalAt_append u post hb)

theorem keyOf_some_contains (f k : Str) (h : keyOf (stripStr f) = some k) :
    containsBarePostal f = true := by
  unfold keyOf at h
  cases hps : reSearch postcodeStep (stripStr f) with
  | none => rw [hps] at h; cases h
  | some pc =>
    rcases searchAux_success postcodeStep pc (stripStr f) [] hps with ⟨pre', s', hsuf, hstep⟩
    have hbare := postcodeStep_bare pre' s' pc hstep
    rcases hsuf with ⟨t, ht⟩
    rcases stripStr_isInf f with ⟨u, v, huv⟩
    have hinf : s' <:+: f := by
      refine ⟨u ++ t, v, ?_⟩
      rw [← huv, ← ht]
      simp [List.append_assoc]
    exact containsBarePostal_of_infix s' f hinf hbare

theorem keyOf_none_of_not_contains (f : Str) (h : containsBarePostal f = false) :
    keyOf (stripStr f) = none := by
  cases hk : keyOf (stripStr f) with
  | none => rfl
  | some k => rw [keyOf_some_contains f k hk] at h; cases h

/-!
## Lemmas: the canonical pick `max(addresses, key=len)`
-/

theorem foldl_pickLonger_spec (rest : List Str) : ∀ (a : Str),
    ∃ pre post, a :: rest = pre ++ (List.foldl pickLonger a rest) :: post ∧
      (∀ w ∈ pre, w.length < (List.foldl pickLonger a rest).length) ∧
      (∀ w ∈ a :: rest, w.length ≤ (List.foldl pickLonger a rest).length) := by
  induction rest with
  | nil =>
    intro a
    exact ⟨[], [], rfl, by simp, by simp⟩
  | cons x rest ih =>
    intro a
    rw [List.foldl_cons]
    by_cases hx : a.length < x.length
    · have hpick : pickLonger a x = x := by simp [pickLonger, hx]
      rw [hpick]
      rcases ih x with ⟨pre, post, hdecomp, hpre, hall⟩
      refine ⟨a :: pre, post, ?_, ?_, ?_⟩
      · rw [List.cons_append, ← hdecomp]
      · intro w hw
        rcases List.mem_cons.mp hw with rfl | hw
        · exact lt_of_lt_of_le hx (hall x (by simp))
        · exact hpre w hw
      · intro w hw
        rcases List.mem_cons.mp hw with rfl | hw
        · exact le_of_lt (lt_of_lt_of_le hx (hall x (by simp)))
        · exact hall w hw
    · have hpick : pickLonger a x = a := by simp [pickLonger, hx]
      rw [hpick]
      rcases ih a with ⟨pre, post, hdecomp, hpre, hall⟩
      have hxa : x.length ≤ a.length := Nat.le_of_not_lt hx
      have halen : a.length ≤ (List.foldl pickLonger a rest).length := hall a (by simp)
      cases pre with
      | nil =>
        simp only [List.nil_append] at hdecomp
        injection hdecomp with h1 h2
        refine ⟨[], x :: rest, ?_, by simp, ?_⟩
        · rw [List.nil_append, ← h1]
        · intro w hw
          rcases List.mem_cons.mp hw with rfl | hw
          · exact halen
          · rcases List.mem_cons.mp hw with rfl | hw
            · exact le_trans hxa halen
            · exact hall w (by simp [hw])
      | cons p pre' =>
        rw [List.cons_append] at hdecomp
        injection hdecomp with h1 h2
        subst h1
        refine ⟨a :: x :: pre', post, ?_, ?_, ?_⟩
        · rw [List.cons_append, List.cons_append, ← h2]
        · intro w hw
          have hplen : a.length < (List.foldl pickLonger a rest).length :=
            hpre a (by simp)
          rcases List.mem_cons.mp hw with rfl | hw
          · exact hplen
          · rcases List.mem_cons.mp hw with rfl | hw
            · exact lt_of_le_of_lt hxa hplen
            · exact hpre w (by simp [hw])
        · intro w hw
          rcases List.mem_cons.mp hw with rfl | hw
          · exact hall w (by simp)
          · rcases List.mem_cons.mp hw with rfl | hw
            · exact le_trans hxa halen
            · exact hall w (by simp [hw])

theorem maxByLen_spec (a : Str) (rest : List Str) :
    ∃ pre post, a :: rest = pre ++ maxByLen (a :: rest) :: post ∧
      (∀ w ∈ pre, w.length < (maxByLen (a :: rest)).length) ∧
      (∀ w ∈ a :: rest, w.length ≤ (maxByLen (a :: rest)).length) :=
  foldl_pickLonger_spec rest a

theorem maxByLen_mem (addrs : List Str) (h : addrs ≠ []) : maxByLen addrs ∈ addrs := by
  cases addrs with
  | nil => exact absurd rfl h
  | cons a rest =>
    rcases maxByLen_spec a rest with ⟨pre, post, hdecomp, _, _⟩
    have hmem : maxByLen (a :: rest) ∈ pre ++ maxByLen (a :: rest) :: post := by simp
    rw [← hdecomp] at hmem
    exact hmem

theorem maxByLen_le (addrs : List Str) (w : Str) (hw : w ∈ addrs) :
    w.length ≤ (maxByLen addrs).length := by
  cases addrs with
  | nil => cases hw
  | cons a rest =>
    rcases maxByLen_spec a rest with ⟨_, _, _, _, hall⟩
    exact hall w hw

/-!
## Lemmas: the merge loop and survivor sets
-/

theorem mergeLoop_fst_sub (x : Str) :
    ∀ (addrs : List Str) (a : Str), a ∈ (mergeLoop x addrs).1 → a ∈ addrs := by
  intro addrs
  induction addrs with
  | nil => intro a h; cases h
  | cons b rest ih =>
    intro a h
    rw [mergeLoop] at h
    by_cases hsim : simGtP8 x b
    · rw [if_pos hsim] at h
      by_cases hlen : b.length < x.length
      · rw [if_pos hlen] at h
        exact List.mem_cons_of_mem b (ih a h)
      · rw [if_neg hlen] at h
        exact h
    · rw [if_neg hsim] at h
      by_cases hsub : isSubstring b x
      · rw [if_pos hsub] at h
        exact List.mem_cons_of_mem b (ih a h)
      · rw [if_neg hsub] at h
        rcases List.mem_cons.mp h with rfl | h
        · exact List.mem_cons_self _ _
        · exact List.mem_cons_of_mem b (ih a h)

theorem mergeLoop_false_dom (x : Str) :
    ∀ (addrs : List Str), (mergeLoop x addrs).2 = false →
      ∃ c ∈ (mergeLoop x addrs).1, x.length ≤ c.length := by
  intro addrs
  induction addrs with
  | nil => intro h; cases h
  | cons b rest ih =>
    intro h
    rw [mergeLoop] at h ⊢
    by_cases hsim : simGtP8 x b
    · rw [if_pos hsim] at h ⊢
      by_cases hlen : b.length < x.length
      · rw [if_pos hlen] at h ⊢
        exact ih h
      · rw [if_neg hlen] at h ⊢
        exact ⟨b, List.mem_cons_self _ _, Nat.le_of_not_lt hlen⟩
    · rw [if_neg hsim] at h ⊢
      by_cases hsub : isSubstring b x
      · rw [if_pos hsub] at h ⊢
        exact ih h
      · rw [if_neg hsub] at h ⊢
        simp only [] at h
        rcases ih h with ⟨c, hc, hlen⟩
        exact ⟨c, List.mem_cons_of_mem b hc, hlen⟩

theorem mergeLoop_dominates (x : Str) :
    ∀ (addrs : List Str) (a : Str), a ∈ addrs →
      a ∈ (mergeLoop x addrs).1 ∨ a.length ≤ x.length := by
  intro addrs
  induction addrs with
  | nil => intro a h; cases h
  | cons b rest ih =>
    intro a ha
    rw [mergeLoop]
    by_cases hsim : simGtP8 x b
    · rw [if_pos hsim]
      by_cases hlen : b.length < x.length
      · rw [if_pos hlen]
        rcases List.mem_cons.mp ha with rfl | ha
        · exact Or.inr (Nat.le_of_lt hlen)
        · exact ih a ha
      · rw [if_neg hlen]
        exact Or.inl ha
    · rw [if_neg hsim]
      by_cases hsub : isSubstring b x
      · rw [if_pos hsub]
        rcases List.mem_cons.mp ha with rfl | ha
        · exact Or.inr (isSubstring_length a x hsub)
        · exact ih a ha
      · rw [if_neg hsub]
        rcases List.mem_cons.mp ha with rfl | ha
        · exact Or.inl (List.mem_cons_self _ _)
        · rcases ih a ha with h | h
          · exact Or.inl (List.mem_cons_of_mem b h)
          · exact Or.inr h

theorem insertAddr_sub (addrs : List Str) (x a : Str) (h : a ∈ insertAddr addrs x) :
    a ∈ addrs ∨ a = x := by
  unfold insertAddr at h
  by_cases hb : (mergeLoop x addrs).2
  · rw [if_pos hb] at h
    rcases List.mem_append.mp h with h | h
    · exact Or.inl (mergeLoop_fst_sub x addrs a h)
    · exact Or.inr (List.mem_singleton.mp h)
  · rw [if_neg hb] at h
    exact Or.inl (mergeLoop_fst_sub x addrs a h)

theorem insertAddr_self_dom (addrs : List Str) (x : Str) :
    ∃ c ∈ insertAddr addrs x, x.length ≤ c.length := by
  unfold insertAddr
  by_cases hb : (mergeLoop x addrs).2
  · rw [if_pos hb]
    exact ⟨x, by simp, le_refl _⟩
  · rw [if_neg hb]
    exact mergeLoop_false_dom x addrs (Bool.not_eq_true _ ▸ hb)

theorem insertAddr_dom (addrs : List Str) (x a : Str) (ha : a ∈ addrs) :
    ∃ c ∈ insertAddr addrs x, a.length ≤ c.length := by
  rcases mergeLoop_dominates x addrs a ha with h | h
  · refine ⟨a, ?_, le_refl _⟩
    unfold insertAddr
    by_cases hb : (mergeLoop x addrs).2
    · rw [if_pos hb]
      exact List.mem_append.mpr (Or.inl h)
    · rw [if_neg hb]
      exact h
  · rcases insertAddr_self_dom addrs x with ⟨c, hc, hlen⟩
    exact ⟨c, hc, le_trans h hlen⟩

theorem insertAddr_ne_nil (addrs : List Str) (x : Str) : insertAddr addrs x ≠ [] := by
  unfold insertAddr
  by_cases hb : (mergeLoop x addrs).2
  · rw [if_pos hb]
    simp
  · rw [if_neg hb]
    rcases mergeLoop_false_dom x addrs (Bool.not_eq_true _ ▸ hb) with ⟨c, hc, _⟩
    exact List.ne_nil_of_mem hc

/-!
## Lemmas: the keyed map of survivor sets
-/

theorem updateAssoc_fresh (m : List (Str × List Str)) (k x : Str)
    (h : k ∉ m.map Prod.fst) : updateAssoc m k x = m ++ [(k, insertAddr [] x)] := by
  induction m with
  | nil => rfl
  | cons p rest ih =>
    rcases p with ⟨k', v⟩
    simp only [List.map_cons, List.mem_cons] at h
    push_neg at h
    rw [updateAssoc, if_neg (fun he => h.1 he.symm)]
    rw [ih h.2]
    rfl

theorem updateAssoc_map_fst_mem (m : List (Str × List Str)) (k x : Str)
    (h : k ∈ m.map Prod.fst) :
    (updateAssoc m k x).map Prod.fst = m.map Prod.fst := by
  induction m with
  | nil => cases h
  | cons p rest ih =>
    rcases p with ⟨k', v⟩
    by_cases he : k' = k
    · rw [updateAssoc, if_pos he]
      rfl
    · simp only [List.map_cons, List.mem_cons] at h
      rcases h with h | h
      · exact absurd h.symm he
      · rw [updateAssoc, if_neg he]
        simp only [List.map_cons]
        rw [ih h]

theorem updateAssoc_mem (m : List (Str × List Str)) (k x : Str)
    (p : Str × List Str) (hp : p ∈ updateAssoc m k x) :
    p ∈ m ∨ ∃ old, p = (k, insertAddr old x) ∧ ((k, old) ∈ m ∨ old = []) := by
  induction m with
  | nil =>
    rw [updateAssoc] at hp
    rcases List.mem_singleton.mp hp with rfl
    exact Or.inr ⟨[], rfl, Or.inr rfl⟩
  | cons q rest ih =>
    rcases q with ⟨k', v⟩
    by_cases he : k' = k
    · rw [updateAssoc, if_pos he] at hp
      rcases List.mem_cons.mp hp with rfl | hp
      · subst he
        exact Or.inr ⟨v, rfl, Or.inl (List.mem_cons_self _ _)⟩
      · exact Or.inl (List.mem_cons_of_mem _ hp)
    · rw [updateAssoc, if_neg he] at hp
      rcases List.mem_cons.mp hp with rfl | hp
      · exact Or.inl (List.mem_cons_self _ _)
      · rcases ih hp with h | ⟨old, hold, hmem⟩
        · exact Or.inl (List.mem_cons_of_mem _ h)
        · rcases hmem with hmem | hmem
          · exact Or.inr ⟨old, hold, Or.inl (List.mem_cons_of_mem _ hmem)⟩
          · exact Or.inr ⟨old, hold, Or.inr hmem⟩

theorem mem_updateAssoc_of_ne (m : List (Str × List Str)) (k x : Str)
    (p : Str × List Str) (hp : p ∈ m) (hne : p.1 ≠ k) : p ∈ updateAssoc m k x := by
  induction m with
  | nil => cases hp
  | cons q rest ih =>
    rcases q with ⟨k', v⟩
    by_cases he : k' = k
    · rw [updateAssoc, if_pos he]
      rcases List.mem_cons.mp hp with rfl | hp
      · exact absurd he hne
      · exact List.mem_cons_of_mem _ hp
    · rw [updateAssoc, if_neg he]
      rcases List.mem_cons.mp hp with rfl | hp
      · exact List.mem_cons_self _ _
      · exact List.mem_cons_of_mem _ (ih hp)

theorem mem_updateAssoc_self (m : List (Str × List Str)) (k x : Str) (old : List Str)
    (hnd : (m.map Prod.fst).Nodup) (hmem : (k, old) ∈ m) :
    (k, insertAddr old x) ∈ updateAssoc m k x := by
  induction m with
  | nil => cases hmem
  | cons q rest ih =>
    rcases q with ⟨k', v⟩
    simp only [List.map_cons, List.nodup_cons] at hnd
    by_cases he : k' = k
    · rw [updateAssoc, if_pos he]
      rcases List.mem_cons.mp hmem with heq | hmem
      · have hv : old = v := congrArg Prod.snd heq
        subst hv
        subst he
        exact List.mem_cons_self _ _
      · exfalso
        subst he
        exact hnd.1 (List.mem_map.mpr ⟨(k', old), hmem, rfl⟩)
    · rw [updateAssoc, if_neg he]
      rcases List.mem_cons.mp hmem with heq | hmem
      · exact absurd (congrArg Prod.fst heq).symm he
      · exact List.mem_cons_of_mem _ (ih hnd.2 hmem)

theorem exists_updateAssoc_entry (m : List (Str × List Str)) (k x : Str) :
    ∃ old, (k, insertAddr old x) ∈ updateAssoc m k x ∧ ((k, old) ∈ m ∨ old = []) := by
  induction m with
  | nil => exact ⟨[], List.mem_singleton.mpr rfl, Or.inr rfl⟩
  | cons q rest ih =>
    rcases q with ⟨k', v⟩
    by_cases he : k' = k
    · subst he
      rw [updateAssoc, if_pos rfl]
      exact ⟨v, List.mem_cons_self _ _, Or.inl (List.mem_cons_self _ _)⟩
    · rw [updateAssoc, if_neg he]
      rcases ih with ⟨old, hm, hmem⟩
      rcases hmem with hmem | hmem
      · exact ⟨old, List.mem_cons_of_mem _ hm, Or.inl (List.mem_cons_of_mem _ hmem)⟩
      · exact ⟨old, List.mem_cons_of_mem _ hm, Or.inr hmem⟩

/-!
## The survivor-map invariant
-/

/-- Invariant of `addresses_by_postal`: keys are distinct, every survivor set
is non-empty, and every survivor is a stripped fragment whose extracted,
normalized postal key is the key it is filed under. -/
def DInv (m : List (Str × List Str)) : Prop :=
  (m.map Prod.fst).Nodup ∧
    ∀ p ∈ m, p.2 ≠ [] ∧ ∀ a ∈ p.2, stripStr a = a ∧ keyOf a = some p.1

theorem dedupeStep_of_none (m : List (Str × List Str)) (frag : Str)
    (h : reSearch postcodeStep (stripStr frag) = none) : dedupeStep m frag = m := by
  show (match reSearch postcodeStep (stripStr frag) with
        | none => m
        | some pc => updateAssoc m (normalize_postal_code pc) (stripStr frag)) = m
  rw [h]

theorem dedupeStep_of_some (m : List (Str × List Str)) (frag pc : Str)
    (h : reSearch postcodeStep (stripStr frag) = some pc) :
    dedupeStep m frag = updateAssoc m (normalize_postal_code pc) (stripStr frag) := by
  show (match reSearch postcodeStep (stripStr frag) with
        | none => m
        | some pc => updateAssoc m (normalize_postal_code pc) (stripStr frag)) =
      updateAssoc m (normalize_postal_code pc) (stripStr frag)
  rw [h]

theorem keyOf_strip_of_some (frag pc : Str)
    (h : reSearch postcodeStep (stripStr frag) = some pc) :
    keyOf (stripStr frag) = some (normalize_postal_code pc) := by
  unfold keyOf
  rw [h]
  rfl

theorem dedupeStep_DInv (m : List (Str × List Str)) (frag : Str) (h : DInv m) :
    DInv (dedupeStep m frag) := by
  cases hps : reSearch postcodeStep (stripStr frag) with
  | none => rw [dedupeStep_of_none m frag hps]; exact h
  | some pc =>
    rw [dedupeStep_of_some m frag pc hps]
    have hk : normalize_postal_code pc = normalize_postal_code pc := rfl
    constructor
    · by_cases hmem : normalize_postal_code pc ∈ m.map Prod.fst
      · rw [updateAssoc_map_fst_mem m _ _ hmem]
        exact h.1
      · rw [updateAssoc_fresh m _ _ hmem]
        rw [List.map_append]
        rw [List.nodup_append]
        refine ⟨h.1, by simp, ?_⟩
        intro a ha hb
        simp only [List.map_cons, List.map_nil, List.mem_singleton] at hb
        subst hb
        exact hmem ha
    · intro p hp
      rcases updateAssoc_mem m (normalize_postal_code pc) (stripStr frag) p hp with
        hpm | ⟨old, rfl, hold⟩
      · exact h.2 p hpm
      · refine ⟨insertAddr_ne_nil old (stripStr frag), ?_⟩
        intro a ha
        rcases insertAddr_sub old (stripStr frag) a ha with haold | rfl
        · rcases hold with hold | rfl
          · exact (h.2 _ hold).2 a haold
          · cases haold
        · exact ⟨stripStr_idem frag, keyOf_strip_of_some frag pc hps⟩

theorem foldl_DInv (frags : List Str) :
    ∀ (m : List (Str × List Str)), DInv m → DInv (List.foldl dedupeStep m frags) := by
  induction frags with
  | nil => intro m h; exact h
  | cons g frags ih =>
    intro m h
    rw [List.foldl_cons]
    exact ih (dedupeStep m g) (dedupeStep_DInv m g h)

theorem dedupeGroups_DInv (frags : List Str) : DInv (dedupeGroups frags) :=
  foldl_DInv frags [] ⟨List.nodup_nil, by intro p hp; cases hp⟩

/-- After folding the remaining fragments, every current survivor is still
dominated in length by some survivor under its key, and every processed
fragment with a key is dominated under that key. -/
theorem foldl_dom (frags : List Str) :
    ∀ (m : List (Str × List Str)), DInv m →
      (∀ k addrs a, (k, addrs) ∈ m → a ∈ addrs →
        ∃ addrs2 c, (k, addrs2) ∈ List.foldl dedupeStep m frags ∧ c ∈ addrs2 ∧
          a.length ≤ c.length) ∧
      (∀ f ∈ frags, ∀ k, keyOf (stripStr f) = some k →
        ∃ addrs2 c, (k, addrs2) ∈ List.foldl dedupeStep m frags ∧ c ∈ addrs2 ∧
          (stripStr f).length ≤ c.length) := by
  induction frags with
  | nil =>
    intro m _
    refine ⟨?_, ?_⟩
    · intro k addrs a hka ha
      exact ⟨addrs, a, hka, ha, le_refl _⟩
    · intro f hf
      cases hf
  | cons g frags ih =>
    intro m hm
    have hm1 : DInv (dedupeStep m g) := dedupeStep_DInv m g hm
    rcases ih (dedupeStep m g) hm1 with ⟨ihold, ihnew⟩
    rw [List.foldl_cons]
    constructor
    · intro k addrs a hka ha
      cases hps : reSearch postcodeStep (stripStr g) with
      | none =>
        refine ihold k addrs a ?_ ha
        rw [dedupeStep_of_none m g hps]
        exact hka
      | some pc =>
        by_cases hkk : k = normalize_postal_code pc
        · subst hkk
          have hup : (normalize_postal_code pc, insertAddr addrs (stripStr g)) ∈
              dedupeStep m g := by
            rw [dedupeStep_of_some m g pc hps]
            exact mem_updateAssoc_self m _ (stripStr g) addrs hm.1 hka
          rcases insertAddr_dom addrs (stripStr g) a ha with ⟨c, hc, hlen⟩
          rcases ihold _ (insertAddr addrs (stripStr g)) c hup hc with ⟨a2, c2, h2, hc2, hl2⟩
          exact ⟨a2, c2, h2, hc2, le_trans hlen hl2⟩
        · refine ihold k addrs a ?_ ha
          rw [dedupeStep_of_some m g pc hps]
          exact mem_updateAssoc_of_ne m _ _ (k, addrs) hka hkk
    · intro f hf k hkf
      rcases List.mem_cons.mp hf with rfl | hf
      · have hps : reSearch postcodeStep (stripStr f) ≠ none := by
          intro hn
          unfold keyOf at hkf
          rw [hn] at hkf
          cases hkf
        cases hps2 : reSearch postcodeStep (stripStr f) with
        | none => exact absurd hps2 hps
        | some pc =>
          have hkval : k = normalize_postal_code pc := by
            have := keyOf_strip_of_some f pc hps2
            rw [hkf] at this
            exact Option.some.inj this
          subst hkval
          rcases exists_updateAssoc_entry m (normalize_postal_code pc) (stripStr f) with
            ⟨old, hup, _⟩
          rw [← dedupeStep_of_some m f pc hps2] at hup
          rcases insertAddr_self_dom old (stripStr f) with ⟨c, hc, hlen⟩
          rcases ihold _ _ c hup hc with ⟨a2, c2, h2, hc2, hl2⟩
          exact ⟨a2, c2, h2, hc2, le_trans hlen hl2⟩
      · exact ihnew f hf k hkf

/-!
## Lemmas: idempotence of the dedup pass
-/

theorem insertAddr_nil_eq (x : Str) : insertAddr [] x = [x] := rfl

theorem nodup_assoc_eq (m : List (Str × List Str)) (k : Str) (a b : List Str)
    (hnd : (m.map Prod.fst).Nodup) (ha : (k, a) ∈ m) (hb : (k, b) ∈ m) : a = b := by
  induction m with
  | nil => cases ha
  | cons q rest ih =>
    simp only [List.map_cons, List.nodup_cons] at hnd
    rcases List.mem_cons.mp ha with rfl | ha2
    · rcases List.mem_cons.mp hb with heq | hb2
      · exact (congrArg Prod.snd heq).symm
      · have hkb : k ∈ rest.map Prod.fst := List.mem_map.mpr ⟨(k, b), hb2, rfl⟩
        exact absurd hkb hnd.1
    · rcases List.mem_cons.mp hb with heq | hb2
      · have hka : k ∈ rest.map Prod.fst := List.mem_map.mpr ⟨(k, a), ha2, rfl⟩
        have hk1 : (k, b).1 ∉ rest.map Prod.fst := heq ▸ hnd.1
        exact absurd hka hk1
      · exact ih hnd.2 ha2 hb2

/-- Every canonical entry of a dedup result is a stripped string whose
extracted key is its own key. -/
theorem dedupe_entry_canon (frags : List Str) (k v : Str)
    (hkv : (k, v) ∈ dedupe frags) :
    stripStr v = v ∧ keyOf v = some k ∧
      ∃ addrs, (k, addrs) ∈ dedupeGroups frags ∧ addrs ≠ [] ∧ v = maxByLen addrs := by
  unfold dedupe at hkv
  rcases List.mem_map.mp hkv with ⟨p, hp, hcol⟩
  have hd := dedupeGroups_DInv frags
  have hk : p.1 = k := congrArg Prod.fst hcol
  have hv : maxByLen p.2 = v := congrArg Prod.snd hcol
  have hne : p.2 ≠ [] := (hd.2 p hp).1
  have hmem : maxByLen p.2 ∈ p.2 := maxByLen_mem p.2 hne
  rcases (hd.2 p hp).2 (maxByLen p.2) hmem with ⟨hstrip, hkey⟩
  refine ⟨by rw [← hv]; exact hstrip, by rw [← hv, ← hk]; exact hkey, ?_⟩
  refine ⟨p.2, ?_, hne, hv.symm⟩
  rw [← hk]
  exact hp

/-- Folding already-canonical values with pairwise fresh keys appends one
singleton group per value. -/
theorem foldl_canon (ps : List (Str × Str)) :
    ∀ (m : List (Str × List Str)),
      (∀ p ∈ ps, stripStr p.2 = p.2 ∧ keyOf p.2 = some p.1) →
      ((m.map Prod.fst ++ ps.map Prod.fst).Nodup) →
      List.foldl dedupeStep m (ps.map Prod.snd) =
        m ++ ps.map (fun p => (p.1, [p.2])) := by
  induction ps with
  | nil =>
    intro m _ _
    simp
  | cons q ps ih =>
    intro m hcanon hnd
    rcases hcanon q (List.mem_cons_self _ _) with ⟨hstrip, hkey⟩
    have hsearch : ∃ pc, reSearch postcodeStep (stripStr q.2) = some pc ∧
        normalize_postal_code pc = q.1 := by
      rw [hstrip]
      unfold keyOf at hkey
      cases hps : reSearch postcodeStep q.2 with
      | none => rw [hps] at hkey; cases hkey
      | some pc =>
        rw [hps] at hkey
        exact ⟨pc, rfl, Option.some.inj hkey⟩
    rcases hsearch with ⟨pc, hps, hnorm⟩
    have hqfresh : q.1 ∉ m.map Prod.fst := by
      intro hq
      have : q.1 ∈ m.map Prod.fst ++ (q :: ps).map Prod.fst := List.mem_append.mpr (Or.inl hq)
      rcases List.nodup_append.mp hnd with ⟨_, _, hdisj⟩
      exact hdisj hq (by simp)
    have hstep : dedupeStep m q.2 = m ++ [(q.1, [q.2])] := by
      rw [dedupeStep_of_some m q.2 pc hps]
      rw [hnorm, hstrip]
      rw [updateAssoc_fresh m q.1 q.2 hqfresh]
      rw [insertAddr_nil_eq]
    simp only [List.map_cons, List.foldl_cons]
    rw [hstep]
    rw [ih (m ++ [(q.1, [q.2])]) (fun p hp => hcanon p (List.mem_cons_of_mem _ hp)) ?_]
    · simp
    · simp only [List.map_append, List.map_cons] at hnd ⊢
      simp only [List.map_nil]
      have : m.map Prod.fst ++ [q.1] ++ ps.map Prod.fst =
          m.map Prod.fst ++ q.1 :: ps.map Prod.fst := by simp
      rw [this]
      exact hnd

theorem reSearch_none_of_keyOf_none (f : Str) (h : keyOf (stripStr f) = none) :
    reSearch postcodeStep (stripStr f) = none := by
  unfold keyOf at h
  cases hps : reSearch postcodeStep (stripStr f) with
  | none => rfl
  | some pc => rw [hps] at h; cases h

theorem foldl_dedupeStep_id (fs : List Str) :
    ∀ m, (∀ f ∈ fs, keyOf (stripStr f) = none) → List.foldl dedupeStep m fs = m := by
  induction fs with
  | nil => intro m _; rfl
  | cons g fs ih =>
    intro m h
    rw [List.foldl_cons]
    rw [dedupeStep_of_none m g (reSearch_none_of_keyOf_none g (h g (List.mem_cons_self _ _)))]
    exact ih m (fun f hf => h f (List.mem_cons_of_mem _ hf))

/-- C1 counterexample to the "first-seen on length ties" tie-break.  On this
input both fragments share the key `"AB 12345"`, their similarity ratio is
`18/24 = 0.75`, not above `0.8`, and neither is a substring of the other, so
both survive with equal length.  `max(addresses, key=len)` returns the first
element of maximal length in the survivor set's iteration order, and CPython
iterates a `set` in hash order, not insertion order: presenting the survivors
in the reversed order makes `max` return the second-seen fragment (observed
in CPython on this very input), so the program's canonical on a length tie is
not determined to be the first-seen one. -/
theorem C1_tie_order_cex :
    dedupeGroups [chars "AB 12345 qqq", chars "AB 12345 zzz"] =
      [(chars "AB 12345", [chars "AB 12345 qqq", chars "AB 12345 zzz"])] ∧
    (chars "AB 12345 qqq").length = (chars "AB 12345 zzz").length ∧
    chars "AB 12345 qqq" ≠ chars "AB 12345 zzz" ∧
    maxByLen [chars "AB 12345 qqq", chars "AB 12345 zzz"] = chars "AB 12345 qqq" ∧
    maxByLen [chars "AB 12345 zzz", chars "AB 12345 qqq"] = chars "AB 12345 zzz" :=
  ⟨by decide, by decide, by decide, by decide, by decide⟩

/-- C1 amended: in a dedup result the keys are distinct (each postal key maps
to exactly one canonical string), and each canonical string is a member of
its key's survivor set of maximal length.  (Which tied member is chosen
depends on the survivor set's iteration order and is not asserted.) -/
theorem C1_dedupe_canonical_maximal (frags : List Str) :
    ((dedupe frags).map Prod.fst).Nodup ∧
    ∀ k v, (k, v) ∈ dedupe frags →
      ∃ addrs, (k, addrs) ∈ dedupeGroups frags ∧ v ∈ addrs ∧
        ∀ w ∈ addrs, w.length ≤ v.length := by
  constructor
  · have hfst : (dedupe frags).map Prod.fst = (dedupeGroups frags).map Prod.fst := by
      unfold dedupe
      rw [List.map_map]
      rfl
    rw [hfst]
    exact (dedupeGroups_DInv frags).1
  · intro k v hkv
    rcases dedupe_entry_canon frags k v hkv with ⟨_, _, addrs, haddr, hne, hv⟩
    refine ⟨addrs, haddr, ?_, ?_⟩
    · rw [hv]
      exact maxByLen_mem addrs hne
    · intro w hw
      rw [hv]
      exact maxByLen_le addrs w hw

/-- C1 amended witness at a concrete input. -/
theorem C1_dedupe_canonical_maximal_witness :
    ∃ addrs,
      (chars "IL 62701", addrs) ∈ dedupeGroups [chars "a, IL 62701"] ∧
      chars "a, IL 62701" ∈ addrs ∧
      ∀ w ∈ addrs, w.length ≤ (chars "a, IL 62701").length :=
  (C1_dedupe_canonical_maximal [chars "a, IL 62701"]).2
    (chars "IL 62701") (chars "a, IL 62701") (by decide)

/-- C3: fragments without a postal-code-shaped substring are all dropped
(`dedupe` of such a list is empty), and every surviving canonical string has
an extractable postal code. -/
theorem C3_dedupe_drops_keyless (frags : List Str) :
    ((∀ f ∈ frags, containsBarePostal f = false) → dedupe frags = []) ∧
    (∀ k v, (k, v) ∈ dedupe frags → (reSearch postcodeStep v).isSome = true) := by
  constructor
  · intro h
    have hgroups : dedupeGroups frags = [] :=
      foldl_dedupeStep_id frags []
        (fun f hf => keyOf_none_of_not_contains f (h f hf))
    unfold dedupe
    rw [hgroups]
    rfl
  · intro k v hkv
    rcases dedupe_entry_canon frags k v hkv with ⟨_, hkey, _⟩
    unfold keyOf at hkey
    cases hps : reSearch postcodeStep v with
    | none => rw [hps] at hkey; cases hkey
    | some pc => rfl

/-- C3 witness: `dedupe ["no code here"]` is empty. -/
theorem C3_dedupe_drops_keyless_witness :
    dedupe [chars "no code here"] = [] :=
  (C3_dedupe_drops_keyless [chars "no code here"]).1 (by decide)

/-- C4: deduplication is idempotent — feeding the canonical values of a dedup
result back through `dedupe` reproduces the same mapping. -/
theorem C4_dedupe_idempotent (frags : List Str) :
    dedupe ((dedupe frags).map Prod.snd) = dedupe frags := by
  have hcanon : ∀ p ∈ dedupe frags, stripStr p.2 = p.2 ∧ keyOf p.2 = some p.1 := by
    intro p hp
    have hp2 : (p.1, p.2) ∈ dedupe frags := by simpa using hp
    rcases dedupe_entry_canon frags p.1 p.2 hp2 with ⟨h1, h2, _⟩
    exact ⟨h1, h2⟩
  have hfst : (dedupe frags).map Prod.fst = (dedupeGroups frags).map Prod.fst := by
    unfold dedupe
    rw [List.map_map]
    rfl
  have hnd : (([] : List (Str × List Str)).map Prod.fst ++
      (dedupe frags).map Prod.fst).Nodup := by
    rw [hfst]
    simpa using (dedupeGroups_DInv frags).1
  have hfold := foldl_canon (dedupe frags) [] hcanon hnd
  show (List.foldl dedupeStep [] ((dedupe frags).map Prod.snd)).map collapseGroup =
    dedupe frags
  rw [hfold]
  simp only [List.nil_append, List.map_map]
  have hcomp : (collapseGroup ∘ fun p : Str × Str => (p.1, [p.2])) =
      fun p : Str × Str => (p.1, p.2) := rfl
  rw [hcomp]
  simp

/-!
## C5: the canonical string versus discarded fragments
-/

/-- C5 counterexample: on `["IL 62701", "IL 62701!"]` the merge discards the
fragment `"IL 62701"` (same key, not the canonical) in favour of the longer
near-duplicate, and the canonical `"IL 62701!"` has similarity ratio
`16/17 > 0.8` with the discarded fragment — contradicting the claim that the
canonical is never a near-duplicate of a discarded fragment. -/
theorem C5_near_duplicate_cex :
    dedupe [chars "IL 62701", chars "IL 62701!"] =
      [(chars "IL 62701", chars "IL 62701!")] ∧
    chars "IL 62701" ∈ [chars "IL 62701", chars "IL 62701!"] ∧
    keyOf (stripStr (chars "IL 62701")) = some (chars "IL 62701") ∧
    chars "IL 62701" ≠ chars "IL 62701!" ∧
    (4/5 : ℚ) < similarity (chars "IL 62701!") (chars "IL 62701") := by
  refine ⟨by decide, by decide, by decide, by decide, ?_⟩
  have hm : matchSum (chars "IL 62701!") (chars "IL 62701") = 8 := by decide
  have h1 : (chars "IL 62701!").length = 9 := by decide
  have h2 : (chars "IL 62701").length = 8 := by decide
  rw [similarity, hm, h1, h2]
  norm_num

/-- C5 amended: the canonical string for a key is at least as long as every
same-key fragment (after stripping), hence never a strict substring of a
discarded fragment; it may however be a near-duplicate of one. -/
theorem C5_canonical_length_dominates (frags : List Str) (k v f : Str)
    (hkv : (k, v) ∈ dedupe frags) (hf : f ∈ frags)
    (hkey : keyOf (stripStr f) = some k) :
    (stripStr f).length ≤ v.length ∧ ¬(v <:+: stripStr f ∧ v ≠ stripStr f) := by
  rcases dedupe_entry_canon frags k v hkv with ⟨_, _, addrs, haddr, hne, hv⟩
  have hd0 : DInv ([] : List (Str × List Str)) :=
    ⟨List.nodup_nil, by intro p hp; cases hp⟩
  rcases (foldl_dom frags [] hd0).2 f hf k hkey with ⟨addrs2, c, haddr2, hc, hlen⟩
  have heq : addrs2 = addrs :=
    nodup_assoc_eq (dedupeGroups frags) k addrs2 addrs
      (dedupeGroups_DInv frags).1 haddr2 haddr
  rw [heq] at hc
  have hcv : c.length ≤ v.length := by
    rw [hv]
    exact maxByLen_le addrs c hc
  have hlenv : (stripStr f).length ≤ v.length := le_trans hlen hcv
  refine ⟨hlenv, ?_⟩
  rintro ⟨hinf, hne2⟩
  exact hne2 (hinf.eq_of_length (le_antisymm hinf.length_le hlenv))

/-- C5 amended witness at a concrete input. -/
theorem C5_canonical_length_dominates_witness :
    (stripStr (chars "1 A St, IL 62701")).length ≤ (chars "1 A St, IL 62701").length ∧
    ¬(chars "1 A St, IL 62701" <:+: stripStr (chars "1 A St, IL 62701") ∧
      chars "1 A St, IL 62701" ≠ stripStr (chars "1 A St, IL 62701")) :=
  C5_canonical_length_dominates [chars "1 A St, IL 62701"]
    (chars "IL 62701") (chars "1 A St, IL 62701") (chars "1 A St, IL 62701")
    (by decide) (by decide) (by decide)

/-!
## C6: the fallback candidate locator
-/

/-- C6 counterexample: the composite pattern is compiled with `re.IGNORECASE`
and its bare state+zip alternative is `[A-Za-z]{2}\s\d{5}`, so the lowercase
text node `"il 62701"` does qualify and is returned by the fallback —
contradicting the claim that two uppercase letters are required. -/
theorem C6_lowercase_qualifies_cex :
    find_address_element [] [chars "il 62701"] = [chars "il 62701"] ∧
    compositeSearch (chars "il 62701") = true := by
  constructor
  · decide
  · decide

/-- C6 amended: with no class-selected element, the locator returns exactly
the text nodes on which the composite pattern search succeeds; the pattern's
letter positions accept either case, so `"il 62701"` qualifies. -/
theorem C6_fallback_filter :
    (∀ (ts : List Str) (t : Str),
      t ∈ find_address_element [] ts ↔ t ∈ ts ∧ compositeSearch t = true) ∧
    compositeSearch (chars "il 62701") = true := by
  constructor
  · intro ts t
    show t ∈ ts.filter compositeSearch ↔ _
    simp [List.mem_filter]
  · decide

/-- C6 amended witness at a concrete input. -/
theorem C6_fallback_filter_witness :
    chars "AB 12345" ∈ find_address_element [] [chars "AB 12345"] :=
  ((C6_fallback_filter.1 [chars "AB 12345"] (chars "AB 12345")).mpr (by decide))

/-!
## C2: the worked example of `parse_address`
-/

/-- C2: `parse_address` on `"123 Main Street, Springfield, IL 62701"` yields
`postcode = "IL 62701"`, `road = "Main Street"` (the number stripped),
`street_number = 123`, `city = region = "Springfield"`, and `country = "IL"`
(the pre-zip segment captured by the country regex). -/
theorem C2_parse_address_example :
    parse_address (chars "123 Main Street, Springfield, IL 62701") =
      Except.ok { country := some (chars "IL"),
                  region := some (chars "Springfield"),
                  city := some (chars "Springfield"),
                  postcode := some (chars "IL 62701"),
                  road := some (chars "Main Street"),
                  street_number := some 123 } := rfl

/-!
## C7: the street-number rule
-/

/-- C7: when the road regex matches, `street_number` is the integer value of
the first `\b\d+\b` token of the whole text (absent if there is none); when
the road regex does not match, `street_number` is absent. -/
theorem C7_street_number_rule (s : Str) (r : ParsedAddress)
    (h : parse_address s = Except.ok r) :
    ((reSearch roadStep s).isSome = true →
      r.street_number = (reSearch bareIntStep s).map digitsToNat) ∧
    ((reSearch roadStep s) = none → r.street_number = none) := by
  unfold parse_address at h
  cases hroad : reSearch roadStep s with
  | none =>
    rw [hroad] at h
    simp only [remove_number_from_road] at h
    have hr : r.street_number = none := by
      cases h
      rfl
    refine ⟨?_, fun _ => hr⟩
    intro hcontra
    simp at hcontra
  | some rd =>
    rw [hroad] at h
    cases hrem : remove_number_from_road (some rd) with
    | error e =>
      rw [hrem] at h
      cases h
    | ok rd2 =>
      rw [hrem] at h
      have hr : r.street_number = (reSearch bareIntStep s).map digitsToNat := by
        cases h
        rfl
      refine ⟨fun _ => hr, ?_⟩
      intro hcontra
      simp at hcontra

/-- C7 witness at a concrete input. -/
theorem C7_street_number_rule_witness :
    (reSearch roadStep (chars "742 Evergreen Terrace")).isSome = true ∧
    ({ country := none, region := none, city := none, postcode := none,
       road := some (chars "Evergreen Terrace"),
       street_number := some 742 } : ParsedAddress).street_number =
      (reSearch bareIntStep (chars "742 Evergreen Terrace")).map digitsToNat :=
  ⟨by decide,
    (C7_street_number_rule (chars "742 Evergreen Terrace") _ rfl).1 (by decide)⟩

/-!
## C8 and C10: `remove_number_from_road`
-/

/-- C8: a `None` road is returned unchanged; a road with at least one token
loses its leading token exactly when that token is purely numeric, the rest
rejoined with single spaces. -/
theorem C8_remove_number_spec :
    remove_number_from_road none = Except.ok none ∧
    ∀ (s p : Str) (rest : List Str), pySplit s = p :: rest →
      remove_number_from_road (some s) =
        Except.ok (some (joinTokens (if pyIsDigit p then rest else p :: rest))) := by
  refine ⟨rfl, ?_⟩
  intro s p rest h
  show (match pySplit s with
        | [] => Except.error "IndexError"
        | p :: rest =>
          Except.ok (some (joinTokens (if pyIsDigit p then rest else p :: rest)))) = _
  rw [h]

/-- C8 witness: `"123 Main Street"` loses only the numeric leading token. -/
theorem C8_remove_number_spec_witness :
    pySplit (chars "123 Main Street") =
      [chars "123", chars "Main", chars "Street"] ∧
    remove_number_from_road (some (chars "123 Main Street")) =
      Except.ok (some (joinTokens
        (if pyIsDigit (chars "123") then [chars "Main", chars "Street"]
         else [chars "123", chars "Main", chars "Street"]))) :=
  ⟨by decide,
    C8_remove_number_spec.2 (chars "123 Main Street") (chars "123")
      [chars "Main", chars "Street"] (by decide)⟩

theorem splitAux_all_space (s : Str) (h : ∀ c ∈ s, isSpaceCh c = true) :
    splitAux s [] = [] := by
  induction s with
  | nil => rfl
  | cons c cs ih =>
    have hc : isSpaceCh c = true := h c (List.mem_cons_self _ _)
    show (if isSpaceCh c then
            if ([] : Str).isEmpty then splitAux cs [] else ([] : Str).reverse :: splitAux cs []
          else splitAux cs [c]) = []
    rw [hc]
    simp only [if_true, List.isEmpty_nil]
    exact ih (fun c hc2 => h c (List.mem_cons_of_mem _ hc2))

/-- C10: on the empty string, or any whitespace-only string, splitting yields
no tokens and the indexing `parts[0]` raises `IndexError`, so
`remove_number_from_road` raises instead of returning a string. -/
theorem C10_remove_number_raises (s : Str) (h : ∀ c ∈ s, isSpaceCh c = true) :
    remove_number_from_road (some s) = Except.error "IndexError" := by
  have hsplit : pySplit s = [] := splitAux_all_space s h
  show (match pySplit s with
        | [] => Except.error "IndexError"
        | p :: rest =>
          Except.ok (some (joinTokens (if pyIsDigit p then rest else p :: rest)))) = _
  rw [hsplit]

/-- C10 witness: the empty and a whitespace-only string both raise. -/
theorem C10_remove_number_raises_witness :
    remove_number_from_road (some (chars "")) = Except.error "IndexError" ∧
    remove_number_from_road (some (chars "   ")) = Except.error "IndexError" :=
  ⟨C10_remove_number_raises (chars "") (by decide),
   C10_remove_number_raises (chars "   ") (by decide)⟩

/-!
## C9: the percentage helper
-/

theorem roundHalfEven_nat_div (d s : Nat) (hs : 0 < s) :
    roundHalfEven ((d : ℚ) / (s : ℚ)) =
      (if 2 * (d % s) < s then ((d / s : ℕ) : ℤ)
       else if s < 2 * (d % s) then ((d / s : ℕ) : ℤ) + 1
       else if (d / s) % 2 = 0 then ((d / s : ℕ) : ℤ) else ((d / s : ℕ) : ℤ) + 1) := by
  have hsq : (0 : ℚ) < (s : ℚ) := by exact_mod_cast hs
  have h0 : (0 : ℚ) ≤ (d : ℚ) / (s : ℚ) := by positivity
  have hfl : ⌊(d : ℚ) / (s : ℚ)⌋ = ((d / s : ℕ) : ℤ) := by
    rw [← Int.natCast_floor_eq_floor h0, Nat.floor_div_eq_div]
  have hdm : (d : ℚ) = (s : ℚ) * ((d / s : ℕ) : ℚ) + ((d % s : ℕ) : ℚ) := by
    exact_mod_cast (Nat.div_add_mod d s).symm
  have hfrac : (d : ℚ) / (s : ℚ) - ⌊(d : ℚ) / (s : ℚ)⌋ = ((d % s : ℕ) : ℚ) / (s : ℚ) := by
    rw [hfl, Int.cast_natCast]
    field_simp
    linarith [hdm]
  have hhalf : ∀ r : Nat, (((r : ℚ) / (s : ℚ)) < 1 / 2 ↔ 2 * r < s) := by
    intro r
    rw [div_lt_div_iff₀ hsq (by norm_num : (0:ℚ) < 2)]
    constructor
    · intro h
      have : (2 * r : ℚ) < (s : ℚ) := by linarith
      exact_mod_cast this
    · intro h
      have : (2 * r : ℚ) < (s : ℚ) := by exact_mod_cast h
      linarith
  have hhalf2 : ∀ r : Nat, ((1 / 2 : ℚ) < (r : ℚ) / (s : ℚ) ↔ s < 2 * r) := by
    intro r
    rw [div_lt_div_iff₀ (by norm_num : (0:ℚ) < 2) hsq]
    constructor
    · intro h
      have : (s : ℚ) < (2 * r : ℚ) := by linarith
      exact_mod_cast this
    · intro h
      have : (s : ℚ) < (2 * r : ℚ) := by exact_mod_cast h
      push_cast at this
      linarith
  unfold roundHalfEven
  rw [hfrac, hfl]
  by_cases h1 : 2 * (d % s) < s
  · rw [if_pos ((hhalf (d % s)).mpr h1), if_pos h1]
  · rw [if_neg (fun hc => h1 ((hhalf (d % s)).mp hc)), if_neg h1]
    by_cases h2 : s < 2 * (d % s)
    · rw [if_pos ((hhalf2 (d % s)).mpr h2), if_pos h2]
    · rw [if_neg (fun hc => h2 ((hhalf2 (d % s)).mp hc)), if_neg h2]
      by_cases h3 : (d / s) % 2 = 0
      · rw [if_pos (by exact_mod_cast h3), if_pos h3]
      · rw [if_neg (fun hc => h3 (by exact_mod_cast hc)), if_neg h3]

theorem rndNat_eq_roundHalfEven (N D : Nat) (hD : 0 < D) :
    (rndNat N D : ℤ) = roundHalfEven ((N : ℚ) / (D : ℚ)) := by
  rw [roundHalfEven_nat_div N D hD]
  unfold rndNat
  by_cases h1 : 2 * (N % D) < D
  · rw [if_pos h1, if_pos h1]
  · rw [if_neg h1, if_neg h1]
    by_cases h2 : D < 2 * (N % D)
    · rw [if_pos h2, if_pos h2]
      push_cast
      ring
    · rw [if_neg h2, if_neg h2]
      by_cases h3 : (N / D) % 2 = 0
      · rw [if_pos h3, if_pos h3]
      · rw [if_neg h3, if_neg h3]
        push_cast
        ring

/-- Sanity anchors for the IEEE-754 model of `found_percentage`: CPython
prints `"0.03%"` at `(1, 3999)` (the double for `1/4000 * 100` lies just
above `0.025`), where exact rational arithmetic would print `"0.02%"`; the
other values agree with exact arithmetic. -/
theorem found_percentage_float_examples :
    found_percentage 1 3999 = Except.ok (chars "0.03%") ∧
    found_percentage 1 3 = Except.ok (chars "25.00%") ∧
    found_percentage 1 2 = Except.ok (chars "33.33%") ∧
    found_percentage 2 1 = Except.ok (chars "66.67%") ∧
    found_percentage 1 0 = Except.ok (chars "100.00%") ∧
    found_percentage 0 7 = Except.ok (chars "0.00%") ∧
    found_percentage 1 799 = Except.ok (chars "0.12%") :=
  ⟨rfl, rfl, rfl, rfl, rfl, rfl, rfl⟩

/-- C9: `found_percentage(0, 0)` raises `ZeroDivisionError`, and for a
positive total it returns the two-decimal rendering (half-to-even) of the
exact value of the IEEE-754 double computed by
`awfc / (awfc + awnfc) * 100`, followed by `%`. -/
theorem C9_found_percentage_spec :
    found_percentage 0 0 = Except.error "ZeroDivisionError" ∧
    ∀ a b : Nat, 0 < a + b →
      found_percentage a b = Except.ok
        (formatHundredths
          (roundHalfEven
            (dblValue (doubleMul100 (ratioToDouble a (a + b))) * 100)).toNat ++ ['%']) := by
  refine ⟨rfl, ?_⟩
  intro a b hab
  have hD : 0 < 2 ^ (doubleMul100 (ratioToDouble a (a + b))).2 :=
    pow_pos (by norm_num) _
  have hval : dblValue (doubleMul100 (ratioToDouble a (a + b))) * 100 =
      ((100 * (doubleMul100 (ratioToDouble a (a + b))).1 : ℕ) : ℚ) /
        ((2 ^ (doubleMul100 (ratioToDouble a (a + b))).2 : ℕ) : ℚ) := by
    unfold dblValue
    push_cast
    ring
  rw [hval, ← rndNat_eq_roundHalfEven _ _ hD]
  unfold found_percentage
  rw [if_neg (Nat.pos_iff_ne_zero.mp hab)]
  have hg : ∀ n : ℕ, ((n : ℤ)).toNat = n := by intro n; omega
  rw [hg]

/-- C9 witness at the concrete total `(1, 3999)`, the input where the float
model and exact rational arithmetic disagree. -/
theorem C9_found_percentage_spec_witness :
    found_percentage 1 3999 = Except.ok
      (formatHundredths
        (roundHalfEven
          (dblValue (doubleMul100 (ratioToDouble 1 (1 + 3999))) * 100)).toNat ++ ['%']) :=
  C9_found_percentage_spec.2 1 3999 (by decide)

/-- Coherence of the integer comparison used by the merge loop with the
rational similarity ratio: the merge's test is exactly `ratio > 0.8`. -/
theorem simGtP8_iff_similarity (a b : Str) :
    simGtP8 a b = true ↔ (4 / 5 : ℚ) < similarity a b := by
  unfold simGtP8 similarity
  by_cases h : a.length + b.length = 0
  · rw [if_pos h, if_pos h]
    norm_num
  · rw [if_neg h, if_neg h]
    rw [decide_eq_true_eq]
    have hpos : (0 : ℚ) < (a.length : ℚ) + (b.length : ℚ) := by
      have h2 : 0 < a.length + b.length := Nat.pos_of_ne_zero h
      exact_mod_cast h2
    rw [div_lt_div_iff₀ (by norm_num : (0:ℚ) < 5) hpos]
    constructor
    · intro hn
      have hq : (4 : ℚ) * ((a.length : ℚ) + (b.length : ℚ)) <
          10 * (matchSum a b : ℚ) := by exact_mod_cast hn
      linarith
    · intro hq
      have hn : (4 : ℚ) * ((a.length : ℚ) + (b.length : ℚ)) <
          10 * (matchSum a b : ℚ) := by linarith
      exact_mod_cast hn
